import Mathlib

/-!
# A verification model of the emojs interpreter

This file is a shallow embedding, in Lean 4, of the emoji-scripting-language
interpreter (the TypeScript file whose central pieces are `ScopedMap`,
`resolveValue`, `parseConcat`, `createFn`, the `tokens` table, `parseLine`
and `interpret`).

Modelling conventions:

* The interpreter is grapheme-cluster oriented (it always works on
  `segment(str)`), so a string is modelled as a `List G` of grapheme
  clusters.  `G` has one constructor per reserved operator symbol and a
  constructor `G.ch : Char → G` standing for any other (non-operator)
  grapheme cluster.  String-level operations of the source (`trim`,
  `split`, `startsWith` of a symbol, `indexOf` over the segmented array,
  joining clusters back together) all become list operations at this
  granularity.
* The mutable `ScopedMap` chain is modelled functionally: an environment is
  the list of scope frames from innermost to outermost, each frame an
  association list.  `get`/`set`/`has` become `envGet`/`envSet`/`envHas`,
  mirroring the delegation logic of the class verbatim.  A child scope is a
  fresh empty frame consed onto the parent chain; when a call returns, the
  interpreter resumes with the tail of the chain produced by the call
  (mutations of ancestor frames thereby persist, exactly as the shared
  mutable parent does in the source).
* `resolveValue`'s `while` loop and the recursive `interpret` can run
  forever (cyclic aliases, recursive functions), so both take an explicit
  fuel parameter; running out of fuel yields the distinguished error
  `Err.fuelOut` (for `resolveValue`, the value `none`).  All `throw new
  Error(...)` sites of the source become the remaining `Err` constructors.
-/

/-- A grapheme cluster: one of the eight reserved operator symbols of the
language (👉 🗣️ ❓ ▶️ 🟰 ➕ 🔧 🫷) or an arbitrary other cluster `ch c`. -/
inductive G where
  | assign : G
  | speak : G
  | quest : G
  | arrow : G
  | equals : G
  | concat : G
  | fnMark : G
  | sep : G
  | ch : Char → G
deriving DecidableEq

/-- A string, viewed as its sequence of grapheme clusters. -/
abbrev GStr := List G

/-- The eight reserved symbols listed by the data model (ASSIGN, PRINT,
COND, ARROW, EQUALS, CONCAT, FN_MARK, STMT_SEP). -/
def specSymbols : List G :=
  [G.assign, G.speak, G.quest, G.arrow, G.equals, G.concat, G.fnMark, G.sep]

/-- `VarValue` of the source: a text value or a function value
(`FnValue` with its `argNames` and `body`). -/
inductive Value where
  | text : GStr → Value
  | fn : List GStr → List GStr → Value
deriving DecidableEq

/-- One scope frame: the `local` map of a `ScopedMap` node. -/
abbrev Frame := List (GStr × Value)

/-- A `ScopedMap` chain, innermost scope first. -/
abbrev Env := List Frame

/-- `Map.get`-style lookup in one frame. -/
def flookup (k : GStr) : Frame → Option Value
  | [] => none
  | (k', v) :: t => if k' = k then some v else flookup k t

/-- `Map.set`-style insertion in one frame: replaces the existing entry for
the key, or appends a new one. -/
def fset (k : GStr) (v : Value) : Frame → Frame
  | [] => [(k, v)]
  | (k', v') :: t => if k' = k then (k, v) :: t else (k', v') :: fset k v t

/-- `ScopedMap.get`: look in the local map first, otherwise delegate to the
parent chain. -/
def envGet (k : GStr) : Env → Option Value
  | [] => none
  | s :: rest =>
    match flookup k s with
    | some v => some v
    | none => envGet k rest

/-- `ScopedMap.has`: local map first, then the parent chain. -/
def envHas (k : GStr) : Env → Bool
  | [] => false
  | s :: rest => (flookup k s).isSome || envHas k rest

/-- `ScopedMap.set`: if the key exists locally or there is no parent, store
in the local map; otherwise delegate the set to the parent scope. -/
def envSet (k : GStr) (v : Value) : Env → Env
  | [] => []
  | [s] => [fset k v s]
  | s :: rest =>
    if (flookup k s).isSome then fset k v s :: rest else s :: envSet k v rest

/-- Whether a grapheme cluster is whitespace (for `String.trim`). -/
def isWS : G → Bool
  | G.ch c => c.isWhitespace
  | _ => false

/-- `String.trim` at grapheme granularity. -/
def trimG (l : GStr) : GStr :=
  ((l.dropWhile isWS).reverse.dropWhile isWS).reverse

/-- `String.split(sep)` at grapheme granularity (so `splitOnG sep [] = [[]]`,
like `"".split(sep)` in the source language). -/
def splitOnG (s : G) : GStr → List GStr
  | [] => [[]]
  | g :: rest =>
    if g = s then [] :: splitOnG s rest
    else
      match splitOnG s rest with
      | [] => [[g]]
      | p :: ps => (g :: p) :: ps

/-- Linear scan for the first grapheme satisfying `p`; returns the clusters
before it, the matching cluster, and the clusters after it.  This is the
`indexOf`/`findIndex` idiom of the source, packaged with the two slices the
source takes around the found index. -/
def findSplit (p : G → Bool) : GStr → Option (GStr × G × GStr)
  | [] => none
  | g :: rest =>
    if p g then some ([], g, rest)
    else (findSplit p rest).map fun x => (g :: x.1, x.2.1, x.2.2)

/-- The `while (typeof val === "string" && varMap.has(val))` loop of
`resolveValue`, with fuel.  `none` means the fuel ran out while the loop
still wanted to continue. -/
def resolveLoop (env : Env) : Nat → Value → Option Value
  | 0, Value.text s => if envHas s env then none else some (Value.text s)
  | fuel + 1, Value.text s =>
    if envHas s env then
      match envGet s env with
      | some v' => resolveLoop env fuel v'
      | none => none
    else some (Value.text s)
  | _, v => some v

/-- `resolveValue(name, varMap)`: follow the alias chain starting from
`varMap.get(name)`; the result is the final value if it is text, and the
original `name` otherwise (i.e. when no binding existed, or when the chain
ended on a function value). -/
def resolveValue (fuel : Nat) (name : GStr) (env : Env) : Option GStr :=
  match envGet name env with
  | none => some name
  | some v =>
    match resolveLoop env fuel v with
    | none => none
    | some (Value.text s) => some s
    | some (Value.fn _ _) => some name

/-- One part of a concatenation expression: if the trimmed part is exactly
one grapheme cluster, resolve it as a variable name; otherwise the
(untrimmed) part itself is the literal result. -/
def processPart (fuel : Nat) (part : GStr) (env : Env) : Option GStr :=
  match trimG part with
  | [g] => resolveValue fuel [g] env
  | _ => some part

/-- Process a list of concatenation parts in order, failing when the fuel
of a resolution runs out. -/
def partsMapM (fuel : Nat) (env : Env) : List GStr → Option (List GStr)
  | [] => some []
  | p :: ps =>
    match processPart fuel p env with
    | none => none
    | some a =>
      match partsMapM fuel env ps with
      | none => none
      | some as => some (a :: as)

/-- `parseConcat(raw, varMap)`: split on ➕, process each part, join the
results with no separator. -/
def parseConcat (fuel : Nat) (raw : GStr) (env : Env) : Option GStr :=
  (partsMapM fuel env (splitOnG G.concat raw)).map List.flatten

/-- The fatal errors of the interpreter, plus `fuelOut` for exhaustion of
the termination fuel of this model. -/
inductive Err where
  | fuelOut : Err
  | missingArrowFn : Err
  | missingArrowCond : Err
  | missingEqCond : Err
  | arityErr : Err
  | unknown : Err
deriving DecidableEq

/-- `createFn(raw)`: `none` unless `raw` starts with 🔧 or ▶️; otherwise
find the first ▶️ (fatal error if absent), take the clusters strictly
between the leading cluster and the ▶️ as parameter names, and split
everything after the ▶️ on 🫷 to obtain the body lines. -/
def createFn (raw : GStr) : Except Err (Option Value) :=
  if raw.head? = some G.fnMark ∨ raw.head? = some G.arrow then
    match findSplit (· = G.arrow) raw with
    | none => Except.error Err.missingArrowFn
    | some (before, _, after) =>
      Except.ok (some (Value.fn ((before.drop 1).map fun g => [g]) (splitOnG G.sep after)))
  else Except.ok none

/-- The transient AST node produced by the statement dispatcher. -/
inductive Node where
  | assign : GStr → GStr → Node
  | print : GStr → Node
  | cond : GStr → Node
deriving DecidableEq

/-- Whether a cluster is one of the three tokens of the `tokens` table
(👉, 🗣️, ❓). -/
def isTok (g : G) : Bool :=
  g = G.assign || g = G.speak || g = G.quest

/-- `parseLine(line)`: scan for the first cluster in the `tokens` table;
for 👉 the args are the trimmed text before and after it, for 🗣️ and ❓
the args are the raw clusters after it. -/
def parseLine (line : GStr) : Option Node :=
  match findSplit isTok line with
  | none => none
  | some (before, t, after) =>
    if t = G.assign then some (Node.assign (trimG before) (trimG after))
    else if t = G.speak then some (Node.print after)
    else if t = G.quest then some (Node.cond after)
    else none

/-- The argument-binding loop `argNames.forEach((arg, i) =>
scoped.set(arg, argsPassed[i] || ""))`: each parameter name is `set` (via
the scope-chain rule) to the one-cluster argument of the same index, or to
the empty string when the arguments run out. -/
def bindArgs : List GStr → List G → Env → Env
  | [], _, env => env
  | n :: ns, [], env => bindArgs ns [] (envSet n (Value.text []) env)
  | n :: ns, a :: as, env => bindArgs ns as (envSet n (Value.text [a]) env)

/-- Sequencing after the recursive `interpret` of a child scope: on success
the caller resumes with the tail of the returned chain (the child frame is
discarded; mutations of the ancestor frames persist), and printed output is
concatenated. -/
def seqRun (r : Except Err (Env × List GStr)) (k : Env → Except Err (Env × List GStr)) :
    Except Err (Env × List GStr) :=
  match r with
  | Except.error e => Except.error e
  | Except.ok (e', out) =>
    match k e'.tail with
    | Except.error e => Except.error e
    | Except.ok (e'', out') => Except.ok (e'', out ++ out')

/-- `interpret(lines, varMap)`: the recursive evaluator.  The returned pair
is the final environment chain and the list of lines printed.  The fuel
bounds the recursion depth of the model; the source has no such bound and
instead relies on the host stack. -/
def interpret : Nat → List GStr → Env → Except Err (Env × List GStr)
  | 0, _, _ => Except.error Err.fuelOut
  | _ + 1, [], env => Except.ok (env, [])
  | fuel + 1, line :: rest, env =>
    match trimG line with
    | [] => interpret fuel rest env
    | g :: args =>
      match parseLine (g :: args) with
      | some (Node.assign name valueRaw) =>
        if name.isEmpty || valueRaw.isEmpty then interpret fuel rest env
        else
          match createFn valueRaw with
          | Except.error e => Except.error e
          | Except.ok (some fv) => interpret fuel rest (envSet name fv env)
          | Except.ok none =>
            match parseConcat fuel valueRaw env with
            | none => Except.error Err.fuelOut
            | some s => interpret fuel rest (envSet name (Value.text s) env)
      | some (Node.print prArgs) =>
        match parseConcat fuel prArgs env with
        | none => Except.error Err.fuelOut
        | some s =>
          match interpret fuel rest env with
          | Except.error e => Except.error e
          | Except.ok (e', out) => Except.ok (e', s :: out)
      | some (Node.cond cdArgs) =>
        match findSplit (· = G.arrow) cdArgs with
        | none => Except.error Err.missingArrowCond
        | some (condPart, _, bodyPart) =>
          match findSplit (· = G.equals) (trimG condPart) with
          | none => Except.error Err.missingEqCond
          | some (lhsRaw, _, rhsRaw) =>
            match parseConcat fuel lhsRaw env, parseConcat fuel rhsRaw env with
            | some lhs, some rhs =>
              if lhs = rhs then
                match createFn (G.arrow :: trimG bodyPart) with
                | Except.error e => Except.error e
                | Except.ok (some (Value.fn ns body)) =>
                  if ns.isEmpty then
                    seqRun (interpret fuel body ([] :: env)) (interpret fuel rest)
                  else interpret fuel rest env
                | Except.ok _ => interpret fuel rest env
              else interpret fuel rest env
            | _, _ => Except.error Err.fuelOut
      | none =>
        match envGet [g] env with
        | some (Value.fn ns body) =>
          if ns.isEmpty && !args.isEmpty then Except.error Err.arityErr
          else seqRun (interpret fuel body (bindArgs ns args ([] :: env))) (interpret fuel rest)
        | _ => Except.error Err.unknown

/-- One step of the alias chain of `resolveValue`: from a name `a` to the
next name, defined exactly when `a` is bound to a text value that is itself
a bound name. -/
def stepAlias (env : Env) (a : GStr) : Option GStr :=
  match envGet a env with
  | some (Value.text b) => if envHas b env then some b else none
  | _ => none

/-- `n`-fold iteration of `stepAlias` (as a partial map on names). -/
def iterAlias (env : Env) : Nat → GStr → Option GStr
  | 0, a => some a
  | n + 1, a =>
    match stepAlias env a with
    | none => none
    | some b => iterAlias env n b

/-- The alias chain starting at `s` reaches, within `f` steps, a name on
which `stepAlias` is undefined (i.e. the resolution loop halts). -/
def diesIn (env : Env) (f : Nat) (s : GStr) : Prop :=
  ∃ k, k ≤ f ∧ ∃ t, iterAlias env k s = some t ∧ stepAlias env t = none

/-- The environment's text-alias chains are acyclic: no nonempty chain of
`stepAlias` steps returns to its starting name. -/
def Acyclic (env : Env) : Prop :=
  ∀ a n, iterAlias env (n + 1) a ≠ some a

/-- All keys bound anywhere in the chain. -/
def keysList (env : Env) : List GStr :=
  (env.map fun s => s.map Prod.fst).flatten

/-- Frame inclusion: every key with a binding in `s` has one in `s'`. -/
def frameSub (s s' : Frame) : Prop :=
  ∀ k, (flookup k s).isSome → (flookup k s').isSome

/-- Pointwise frame inclusion of two chains of equal length. -/
def envSub (e e' : Env) : Prop :=
  List.Forall₂ frameSub e e'

/-- The value bound to the `i`-th parameter: the one-cluster text of the
`i`-th argument, or empty text when the arguments run out. -/
def valAt (args : List G) (i : Nat) : Value :=
  match args.get? i with
  | some a => Value.text [a]
  | none => Value.text []

/-! ## Basic lemmas about frames and environments -/

theorem flookup_fset (k k' : GStr) (v : Value) (s : Frame) :
    flookup k' (fset k v s) = if k = k' then some v else flookup k' s := by
  induction s with
  | nil => simp [fset, flookup]
  | cons h t ih =>
    obtain ⟨k₀, v₀⟩ := h
    by_cases hk : k₀ = k
    · subst hk
      simp only [fset, if_pos rfl]
      by_cases h₂ : k₀ = k' <;> simp [flookup, h₂]
    · simp only [fset, if_neg hk]
      by_cases h₂ : k₀ = k'
      · have h₃ : ¬ k = k' := fun hc => hk (h₂.trans hc.symm)
        simp [flookup, h₂, h₃]
      · simp [flookup, h₂, ih]

theorem envHas_eq_isSome (k : GStr) : ∀ e : Env, envHas k e = (envGet k e).isSome := by
  intro e
  induction e with
  | nil => simp [envHas, envGet]
  | cons s rest ih =>
    simp only [envHas, envGet]
    cases h : flookup k s with
    | none => simp [h, ih]
    | some v => simp [h]

theorem envSet_length (k : GStr) (v : Value) : ∀ e : Env, (envSet k v e).length = e.length := by
  intro e
  induction e with
  | nil => rfl
  | cons s rest ih =>
    cases rest with
    | nil => rfl
    | cons r rs =>
      simp only [envSet]
      split
      · rfl
      · simpa using ih

theorem envSet_ne_nil (k : GStr) (v : Value) {e : Env} (h : e ≠ []) : envSet k v e ≠ [] := by
  intro hc
  apply h
  have := envSet_length k v e
  rw [hc] at this
  exact List.length_eq_zero.mp this.symm

theorem envGet_envSet_self (k : GStr) (v : Value) :
    ∀ e : Env, e ≠ [] → envGet k (envSet k v e) = some v := by
  intro e
  induction e with
  | nil => intro h; exact absurd rfl h
  | cons s rest ih =>
    intro _
    cases rest with
    | nil => simp [envSet, envGet, flookup_fset]
    | cons r rs =>
      simp only [envSet]
      split
      · simp [envGet, flookup_fset]
      · next hno =>
        have : flookup k s = none := by
          cases h : flookup k s with
          | none => rfl
          | some w => exact absurd (by simp [h]) hno
        simp [envGet, this, ih (by simp)]

theorem envGet_envSet_other (k k' : GStr) (v : Value) (hne : k ≠ k') :
    ∀ e : Env, envGet k' (envSet k v e) = envGet k' e := by
  intro e
  induction e with
  | nil => rfl
  | cons s rest ih =>
    cases rest with
    | nil => simp [envSet, envGet, flookup_fset, hne]
    | cons r rs =>
      simp only [envSet]
      split
      · simp [envGet, flookup_fset, hne]
      · simp only [envGet, ih]

theorem envHas_envSet_mono (k k' : GStr) (v : Value) {e : Env} (h : envHas k' e = true) :
    envHas k' (envSet k v e) = true := by
  have hne : e ≠ [] := by
    intro hc; subst hc; simp [envHas] at h
  by_cases hk : k = k'
  · subst hk
    rw [envHas_eq_isSome, envGet_envSet_self k v e hne]
    rfl
  · rw [envHas_eq_isSome, envGet_envSet_other k k' v hk, ← envHas_eq_isSome]
    exact h

/-! ## Lemmas about split and scan helpers -/

theorem splitOnG_not_mem (s : G) : ∀ l : GStr, s ∉ l → splitOnG s l = [l] := by
  intro l
  induction l with
  | nil => intro _; rfl
  | cons g rest ih =>
    intro h
    have hg : ¬ g = s := fun hc => h (by simp [hc])
    have hr : s ∉ rest := fun hc => h (by simp [hc])
    simp only [splitOnG, if_neg hg, ih hr]

theorem splitOnG_append (s : G) (post : GStr) :
    ∀ pre : GStr, s ∉ pre → splitOnG s (pre ++ s :: post) = pre :: splitOnG s post := by
  intro pre
  induction pre with
  | nil => intro _; simp [splitOnG]
  | cons g rest ih =>
    intro h
    have hg : ¬ g = s := fun hc => h (by simp [hc])
    have hr : s ∉ rest := fun hc => h (by simp [hc])
    simp only [List.cons_append, splitOnG, if_neg hg, List.append_eq, ih hr]

theorem findSplit_eq_none_iff (p : G → Bool) :
    ∀ l : GStr, findSplit p l = none ↔ ∀ g ∈ l, p g = false := by
  intro l
  induction l with
  | nil => simp [findSplit]
  | cons g rest ih =>
    simp only [findSplit]
    by_cases hg : p g
    · simp [hg]
    · simp only [if_neg hg, Option.map_eq_none', ih, List.mem_cons]
      constructor
      · intro h x hx
        rcases hx with hx | hx
        · subst hx; exact Bool.eq_false_iff.mpr hg
        · exact h x hx
      · intro h x hx; exact h x (Or.inr hx)

theorem findSplit_append (p : G → Bool) (t : G) (post : GStr) (ht : p t = true) :
    ∀ pre : GStr, (∀ g ∈ pre, p g = false) →
      findSplit p (pre ++ t :: post) = some (pre, t, post) := by
  intro pre
  induction pre with
  | nil => intro _; simp [findSplit, ht]
  | cons g rest ih =>
    intro h
    have hg : p g = false := h g (by simp)
    have hr : ∀ x ∈ rest, p x = false := fun x hx => h x (by simp [hx])
    simp only [List.cons_append, findSplit, hg, Bool.false_eq_true, if_false, List.append_eq,
      ih hr, Option.map_some']

/-! ## Lemmas about argument binding -/

theorem envSet_cons_of_not_local (k : GStr) (v : Value) (s : Frame) (rest : Env)
    (hs : flookup k s = none) (hrest : rest ≠ []) :
    envSet k v (s :: rest) = s :: envSet k v rest := by
  cases rest with
  | nil => exact absurd rfl hrest
  | cons r rs => simp [envSet, hs]

theorem bindArgs_child (ns : List GStr) :
    ∀ (args : List G) (e : Env), e ≠ [] →
      bindArgs ns args ([] :: e) = [] :: bindArgs ns args e := by
  induction ns with
  | nil => intro args e _; rfl
  | cons n ns ih =>
    intro args e he
    cases args with
    | nil =>
      rw [bindArgs, envSet_cons_of_not_local n (Value.text []) [] e rfl he,
        ih [] _ (envSet_ne_nil n (Value.text []) he)]
      rfl
    | cons a as =>
      rw [bindArgs, envSet_cons_of_not_local n (Value.text [a]) [] e rfl he,
        ih as _ (envSet_ne_nil n (Value.text [a]) he)]
      rfl

theorem bindArgs_take (ns : List GStr) :
    ∀ (args : List G) (e : Env), bindArgs ns args e = bindArgs ns (args.take ns.length) e := by
  induction ns with
  | nil => intro args e; rfl
  | cons n ns ih =>
    intro args e
    cases args with
    | nil => rfl
    | cons a as => simp only [bindArgs, List.length_cons, List.take_succ_cons, ih as]

theorem envGet_bindArgs_not_mem {n : GStr} {ns : List GStr} (h : n ∉ ns) :
    ∀ (args : List G) (e : Env), envGet n (bindArgs ns args e) = envGet n e := by
  induction ns with
  | nil => intro args e; rfl
  | cons m ns ih =>
    have hm : m ≠ n := fun hc => h (by simp [hc])
    have hns : n ∉ ns := fun hc => h (by simp [hc])
    intro args e
    cases args with
    | nil => rw [bindArgs, ih hns, envGet_envSet_other m n _ hm]
    | cons a as => rw [bindArgs, ih hns, envGet_envSet_other m n _ hm]

theorem bindArgs_get (ns : List GStr) (hnd : ns.Nodup) :
    ∀ (i : Nat) (h : i < ns.length) (args : List G) (e : Env), e ≠ [] →
      envGet (ns.get ⟨i, h⟩) (bindArgs ns args e) = some (valAt args i) := by
  induction ns with
  | nil => intro i h; exact absurd h (by simp)
  | cons n ns ih =>
    intro i h args e he
    have hn : n ∉ ns := (List.nodup_cons.mp hnd).1
    have hnd' : ns.Nodup := (List.nodup_cons.mp hnd).2
    cases i with
    | zero =>
      cases args with
      | nil =>
        rw [bindArgs]
        show envGet n _ = _
        rw [envGet_bindArgs_not_mem hn, envGet_envSet_self n _ _ he]
        rfl
      | cons a as =>
        rw [bindArgs]
        show envGet n _ = _
        rw [envGet_bindArgs_not_mem hn, envGet_envSet_self n _ _ he]
        rfl
    | succ i' =>
      cases args with
      | nil =>
        rw [bindArgs]
        show envGet (ns.get ⟨i', _⟩) _ = _
        rw [ih hnd' i' _ [] _ (envSet_ne_nil n _ he)]
        rfl
      | cons a as =>
        rw [bindArgs]
        show envGet (ns.get ⟨i', _⟩) _ = _
        rw [ih hnd' i' _ as _ (envSet_ne_nil n _ he)]
        rfl

theorem envHas_bindArgs_mono (ns : List GStr) :
    ∀ (args : List G) (e : Env) (k : GStr), envHas k e = true →
      envHas k (bindArgs ns args e) = true := by
  induction ns with
  | nil => intro args e k hk; exact hk
  | cons n ns ih =>
    intro args e k hk
    cases args with
    | nil => exact ih [] _ k (envHas_envSet_mono n k _ hk)
    | cons a as => exact ih as _ k (envHas_envSet_mono n k _ hk)

theorem envHas_bindArgs_of_mem {n : GStr} {ns : List GStr} (h : n ∈ ns) :
    ∀ (args : List G) (e : Env), e ≠ [] → envHas n (bindArgs ns args e) = true := by
  induction ns with
  | nil => exact absurd h (by simp)
  | cons m ns ih =>
    intro args e he
    by_cases hm : n = m
    · subst hm
      have hset : ∀ v, envHas n (envSet n v e) = true := fun v => by
        rw [envHas_eq_isSome, envGet_envSet_self n v e he]; rfl
      cases args with
      | nil => exact envHas_bindArgs_mono ns [] _ n (hset _)
      | cons a as => exact envHas_bindArgs_mono ns as _ n (hset _)
    · have hns : n ∈ ns := by
        rcases List.mem_cons.mp h with hc | hc
        · exact absurd hc hm
        · exact hc
      cases args with
      | nil => exact ih hns [] _ (envSet_ne_nil m _ he)
      | cons a as => exact ih hns as _ (envSet_ne_nil m _ he)

/-! ## Frame inclusion is preserved by every interpreter step -/

theorem frameSub_refl (s : Frame) : frameSub s s := fun _ h => h

theorem frameSub_trans {a b c : Frame} (h₁ : frameSub a b) (h₂ : frameSub b c) : frameSub a c :=
  fun k hk => h₂ k (h₁ k hk)

theorem envSub_refl (e : Env) : envSub e e :=
  List.forall₂_same.mpr fun x _ => frameSub_refl x

theorem envSub_trans {a b c : Env} (h₁ : envSub a b) (h₂ : envSub b c) : envSub a c := by
  induction h₁ generalizing c with
  | nil => cases h₂; exact List.Forall₂.nil
  | cons ha _ ih =>
    cases h₂ with
    | cons hb hl₂ => exact List.Forall₂.cons (frameSub_trans ha hb) (ih hl₂)

theorem frameSub_fset (k : GStr) (v : Value) (s : Frame) : frameSub s (fset k v s) := by
  intro k' hk'
  rw [flookup_fset]
  split
  · rfl
  · exact hk'

theorem envSub_envSet (k : GStr) (v : Value) : ∀ e : Env, envSub e (envSet k v e) := by
  intro e
  induction e with
  | nil => exact List.Forall₂.nil
  | cons s rest ih =>
    cases rest with
    | nil => exact List.Forall₂.cons (frameSub_fset k v s) List.Forall₂.nil
    | cons r rs =>
      simp only [envSet]
      split
      · exact List.Forall₂.cons (frameSub_fset k v s) (envSub_refl _)
      · exact List.Forall₂.cons (frameSub_refl s) ih

theorem envSub_bindArgs (ns : List GStr) :
    ∀ (args : List G) (e : Env), envSub e (bindArgs ns args e) := by
  induction ns with
  | nil => intro args e; exact envSub_refl e
  | cons n ns ih =>
    intro args e
    cases args with
    | nil => exact envSub_trans (envSub_envSet n _ e) (ih [] _)
    | cons a as => exact envSub_trans (envSub_envSet n _ e) (ih as _)

theorem envHas_of_envSub {e e' : Env} (h : envSub e e') (k : GStr)
    (hk : envHas k e = true) : envHas k e' = true := by
  induction h with
  | nil => exact hk
  | cons hf _ ih =>
    simp only [envHas, Bool.or_eq_true] at hk ⊢
    rcases hk with hk | hk
    · exact Or.inl (hf _ hk)
    · exact Or.inr (ih hk)

/-! ## Inversion and step lemmas for the interpreter -/

theorem seqRun_eq_ok {r : Except Err (Env × List GStr)}
    {k : Env → Except Err (Env × List GStr)} {res : Env × List GStr}
    (h : seqRun r k = Except.ok res) :
    ∃ e' out₁ out₂, r = Except.ok (e', out₁) ∧ k e'.tail = Except.ok (res.1, out₂) ∧
      res.2 = out₁ ++ out₂ := by
  cases r with
  | error e => simp [seqRun] at h
  | ok p =>
    obtain ⟨e', out₁⟩ := p
    cases hk : k e'.tail with
    | error e => simp [seqRun, hk] at h
    | ok q =>
      obtain ⟨e'', out₂⟩ := q
      simp only [seqRun, hk] at h
      cases h
      exact ⟨e', out₁, out₂, rfl, hk, rfl⟩

theorem interpret_call_eq (f : Nat) (line : GStr) (rest : List GStr) (env : Env)
    (g : G) (args : List G) (ns : List GStr) (body : List GStr)
    (htrim : trimG line = g :: args)
    (hparse : parseLine (g :: args) = none)
    (hget : envGet [g] env = some (Value.fn ns body))
    (hok : (ns.isEmpty && !args.isEmpty) = false) :
    interpret (f + 1) (line :: rest) env =
      seqRun (interpret f body (bindArgs ns args ([] :: env))) (interpret f rest) := by
  rw [interpret, htrim]
  simp only [hparse, hget, hok, Bool.false_eq_true, if_false]

theorem interpret_call_arity (f : Nat) (line : GStr) (rest : List GStr) (env : Env)
    (g : G) (args : List G) (body : List GStr)
    (htrim : trimG line = g :: args)
    (hparse : parseLine (g :: args) = none)
    (hget : envGet [g] env = some (Value.fn [] body))
    (hargs : args ≠ []) :
    interpret (f + 1) (line :: rest) env = Except.error Err.arityErr := by
  rw [interpret, htrim]
  have hc : (List.isEmpty ([] : List GStr) && !args.isEmpty) = true := by
    cases args with
    | nil => exact absurd rfl hargs
    | cons a as => rfl
  simp only [hparse, hget, hc, if_true]

theorem interpretMono :
    ∀ (fuel : Nat) (lines : List GStr) (e : Env) (r : Env × List GStr),
      interpret fuel lines e = Except.ok r → envSub e r.1 := by
  intro fuel
  induction fuel with
  | zero => intro lines e r h; simp [interpret] at h
  | succ f ih =>
    intro lines e r h
    cases lines with
    | nil =>
      simp only [interpret] at h
      cases h
      exact envSub_refl e
    | cons line rest =>
      rw [interpret] at h
      split at h
      · exact ih _ _ _ h
      · -- nonempty trimmed line
        split at h
        · -- assignment
          split at h
          · exact ih _ _ _ h
          · split at h
            · exact absurd h (by simp)
            · exact envSub_trans (envSub_envSet _ _ _) (ih _ _ _ h)
            · split at h
              · exact absurd h (by simp)
              · exact envSub_trans (envSub_envSet _ _ _) (ih _ _ _ h)
        · -- print
          split at h
          · exact absurd h (by simp)
          · cases hrec : interpret f rest e with
            | error e₀ => rw [hrec] at h; exact absurd h (by simp)
            | ok p =>
              obtain ⟨e', out⟩ := p
              rw [hrec] at h
              cases h
              exact ih rest e (e', out) hrec
        · -- conditional
          split at h
          · exact absurd h (by simp)
          · split at h
            · exact absurd h (by simp)
            · split at h
              · split at h
                · split at h
                  · exact absurd h (by simp)
                  · split at h
                    · -- equal, zero-arg block: run the body in a child scope
                      obtain ⟨e', out₁, out₂, h₁, h₂, _⟩ := seqRun_eq_ok h
                      have hsub₁ : envSub ([] :: e) e' := ih _ _ _ h₁
                      obtain ⟨b, u', _, hu, he'⟩ := List.forall₂_cons_left_iff.mp hsub₁
                      subst he'
                      exact envSub_trans hu (ih rest u' (r.1, out₂) h₂)
                    · exact ih _ _ _ h
                  · exact ih _ _ _ h
                · exact ih _ _ _ h
              · exact absurd h (by simp)
        · -- function call
          split at h
          · split at h
            · exact absurd h (by simp)
            · obtain ⟨e', out₁, out₂, h₁, h₂, _⟩ := seqRun_eq_ok h
              have hsub₁ : envSub ([] :: e) e' :=
                envSub_trans (envSub_bindArgs _ _ _) (ih _ _ _ h₁)
              obtain ⟨b, u', _, hu, he'⟩ := List.forall₂_cons_left_iff.mp hsub₁
              subst he'
              exact envSub_trans hu (ih rest u' (r.1, out₂) h₂)
          · exact absurd h (by simp)

/-! ## The alias chain of the value resolver -/

theorem iterAlias_snoc (env : Env) :
    ∀ (m : Nat) (a b c : GStr), iterAlias env m a = some b → stepAlias env b = some c →
      iterAlias env (m + 1) a = some c := by
  intro m
  induction m with
  | zero =>
    intro a b c h hb
    have ha : a = b := by simpa [iterAlias] using h
    subst ha
    simp [iterAlias, hb]
  | succ m ih =>
    intro a b c h hb
    cases hs : stepAlias env a with
    | none => rw [iterAlias, hs] at h; exact absurd h (by simp)
    | some d =>
      rw [iterAlias, hs] at h
      simp only [iterAlias, hs]
      exact ih d b c h hb

theorem flookup_isSome_mem {k : GStr} :
    ∀ s : Frame, (flookup k s).isSome = true → k ∈ s.map Prod.fst := by
  intro s
  induction s with
  | nil => intro h; simp [flookup] at h
  | cons p t ih =>
    obtain ⟨k₀, v₀⟩ := p
    intro h
    simp only [flookup] at h
    by_cases hk : k₀ = k
    · subst hk; simp
    · rw [if_neg hk] at h
      simp [ih h]

theorem envHas_mem_keysList {k : GStr} :
    ∀ {e : Env}, envHas k e = true → k ∈ keysList e := by
  intro e
  induction e with
  | nil => intro h; simp [envHas] at h
  | cons s rest ih =>
    intro h
    rcases Bool.or_eq_true_iff.mp h with h₁ | h₁
    · simp only [keysList, List.map_cons, List.flatten_cons, List.mem_append]
      exact Or.inl (flookup_isSome_mem s h₁)
    · simp only [keysList, List.map_cons, List.flatten_cons, List.mem_append]
      exact Or.inr (ih h₁)

theorem stepAlias_has {env : Env} {a b : GStr} (h : stepAlias env a = some b) :
    envHas b env = true := by
  unfold stepAlias at h
  split at h
  · next heq =>
    split at h
    · next hhas => cases h; exact hhas
    · exact absurd h (by simp)
  · exact absurd h (by simp)

theorem resolveLoop_ne_none (env : Env) :
    ∀ (f : Nat) (s : GStr) (v : Value), envGet s env = some v → diesIn env f s →
      resolveLoop env f v ≠ none := by
  intro f
  induction f with
  | zero =>
    intro s v hget hdies
    obtain ⟨k, hk, t, hit, hstep⟩ := hdies
    have hk0 : k = 0 := Nat.le_zero.mp hk
    subst hk0
    have hts : t = s := by simpa [iterAlias] using hit.symm
    subst hts
    cases v with
    | fn p b => simp [resolveLoop]
    | text b =>
      have hb : envHas b env = false := by
        cases hhb : envHas b env with
        | false => rfl
        | true =>
          have hsb : stepAlias env t = some b := by simp [stepAlias, hget, hhb]
          rw [hsb] at hstep
          exact absurd hstep (by simp)
      simp [resolveLoop, hb]
  | succ f ih =>
    intro s v hget hdies
    cases v with
    | fn p b => simp [resolveLoop]
    | text b =>
      cases hhb : envHas b env with
      | false => simp [resolveLoop, hhb]
      | true =>
        have hstep : stepAlias env s = some b := by
          simp [stepAlias, hget, hhb]
        obtain ⟨k, hk, t, hit, hsn⟩ := hdies
        cases k with
        | zero =>
          have hts : t = s := by simpa [iterAlias] using hit.symm
          subst hts
          rw [hstep] at hsn
          exact absurd hsn (by simp)
        | succ k' =>
          have hit' : iterAlias env k' b = some t := by
            rw [iterAlias, hstep] at hit; exact hit
          have hdies' : diesIn env f b := ⟨k', Nat.succ_le_succ_iff.mp hk, t, hit', hsn⟩
          have hgb : (envGet b env).isSome = true := by
            rw [← envHas_eq_isSome]; exact hhb
          obtain ⟨v', hv'⟩ := Option.isSome_iff_exists.mp hgb
          have hne := ih b v' hv' hdies'
          simp only [resolveLoop, hhb, if_true, hv']
          exact hne

theorem transGen_iter (env : Env) {a b : GStr}
    (h : Relation.TransGen (fun x y => stepAlias env x = some y) a b) :
    ∃ n, iterAlias env (n + 1) a = some b := by
  induction h with
  | single h₁ => exact ⟨0, by simp [iterAlias, h₁]⟩
  | tail _ h₂ ih =>
    obtain ⟨n, hn⟩ := ih
    exact ⟨n + 1, iterAlias_snoc env _ _ _ _ hn h₂⟩

theorem existsDies (env : Env) (hac : Acyclic env) :
    ∀ s : GStr, envHas s env = true → ∃ f, diesIn env f s := by
  classical
  let ks : Finset GStr := (keysList env).toFinset
  let r : {x // x ∈ ks} → {x // x ∈ ks} → Prop := fun b a =>
    Relation.TransGen (fun x y => stepAlias env x = some y) a.val b.val
  haveI htr : IsTrans {x // x ∈ ks} r :=
    ⟨fun _ _ _ hab hbc => Relation.TransGen.trans hbc hab⟩
  haveI hirr : IsIrrefl {x // x ∈ ks} r := by
    refine ⟨fun a ha => ?_⟩
    obtain ⟨n, hn⟩ := transGen_iter env ha
    exact hac a.val n hn
  have hwf : WellFounded r := Finite.wellFounded_of_trans_of_irrefl r
  have main : ∀ a : {x // x ∈ ks}, ∃ f, diesIn env f a.val := by
    intro a
    refine hwf.induction (C := fun x => ∃ f, diesIn env f x.val) a ?_
    intro x ih
    cases hs : stepAlias env x.val with
    | none => exact ⟨0, 0, Nat.le_refl 0, x.val, rfl, hs⟩
    | some b =>
      have hbks : b ∈ ks := by
        simpa [ks] using envHas_mem_keysList (stepAlias_has hs)
      obtain ⟨f, k, hk, t, hit, hsn⟩ := ih ⟨b, hbks⟩ (Relation.TransGen.single hs)
      refine ⟨f + 1, k + 1, Nat.succ_le_succ hk, t, ?_, hsn⟩
      simp only [iterAlias, hs]
      exact hit
  intro s hs
  exact main ⟨s, by simpa [ks] using envHas_mem_keysList hs⟩

/-! ## Splitting lemmas for the concatenation parser -/

theorem parseConcat_single (fuel : Nat) (env : Env) (raw : GStr) (h : G.concat ∉ raw) :
    parseConcat fuel raw env = processPart fuel raw env := by
  unfold parseConcat
  rw [splitOnG_not_mem _ _ h]
  cases hp : processPart fuel raw env with
  | none => simp [partsMapM, hp]
  | some s => simp [partsMapM, hp]

theorem parseConcat_split (fuel : Nat) (env : Env) (pre post : GStr) (h : G.concat ∉ pre) :
    parseConcat fuel (pre ++ G.concat :: post) env =
      (processPart fuel pre env).bind fun a =>
        (parseConcat fuel post env).map fun b => a ++ b := by
  unfold parseConcat
  rw [splitOnG_append _ _ _ h]
  cases hp : processPart fuel pre env with
  | none => simp [partsMapM, hp]
  | some a =>
    cases hm : partsMapM fuel env (splitOnG G.concat post) with
    | none => simp [partsMapM, hp, hm]
    | some bs => simp [partsMapM, hp, hm]

/-! ## Further helper lemmas -/

theorem findSplit_eq_some (p : G → Bool) :
    ∀ (l b : GStr) (t : G) (a : GStr), findSplit p l = some (b, t, a) →
      l = b ++ t :: a ∧ (∀ g ∈ b, p g = false) ∧ p t = true := by
  intro l
  induction l with
  | nil => intro b t a h; simp [findSplit] at h
  | cons g rest ih =>
    intro b t a h
    by_cases hg : p g
    · rw [findSplit, if_pos hg] at h
      cases h
      exact ⟨rfl, by simp, hg⟩
    · rw [findSplit, if_neg hg, Option.map_eq_some'] at h
      obtain ⟨⟨b', t', a'⟩, hx, heq⟩ := h
      cases heq
      obtain ⟨hl, hb, ht⟩ := ih b' t' a' hx
      refine ⟨by simp [hl], ?_, ht⟩
      intro x hx'
      rcases List.mem_cons.mp hx' with hx' | hx'
      · subst hx'; exact Bool.eq_false_iff.mpr hg
      · exact hb x hx' 

theorem envSet_owner (k : GStr) (v : Value) :
    ∀ (pre : Env) (own : Frame) (post : Env), (∀ fr ∈ pre, flookup k fr = none) →
      (flookup k own).isSome = true →
      envSet k v (pre ++ own :: post) = pre ++ fset k v own :: post := by
  intro pre
  induction pre with
  | nil =>
    intro own post _ hown
    cases post with
    | nil => simp [envSet]
    | cons q qs => simp [envSet, hown]
  | cons fr pres ih =>
    intro own post hpre hown
    have hfr : flookup k fr = none := hpre fr (by simp)
    have hpres : ∀ f ∈ pres, flookup k f = none := fun f hf => hpre f (by simp [hf])
    have hne : pres ++ own :: post ≠ [] := by simp
    rw [List.cons_append, envSet_cons_of_not_local k v fr _ hfr hne, ih own post hpres hown,
      List.cons_append]

theorem envSet_root (k : GStr) (v : Value) :
    ∀ rest : Env, rest ≠ [] → envHas k rest = false →
      ∃ anc last, rest = anc ++ [last] ∧ envSet k v rest = anc ++ [fset k v last] := by
  intro rest
  induction rest with
  | nil => intro h _; exact absurd rfl h
  | cons s rs ih =>
    intro _ hh
    have hs : flookup k s = none := by
      cases hl : flookup k s with
      | none => rfl
      | some w => rw [envHas, hl] at hh; exact absurd hh (by simp)
    cases rs with
    | nil => exact ⟨[], s, rfl, by simp [envSet]⟩
    | cons r rs' =>
      have hh' : envHas k (r :: rs') = false := by
        rw [envHas, hs] at hh
        simpa using hh
      obtain ⟨anc, last, h1, h2⟩ := ih (by simp) hh'
      refine ⟨s :: anc, last, by simp [h1], ?_⟩
      rw [envSet_cons_of_not_local k v s _ hs (by simp), h2, List.cons_append]

theorem acyclicNilRoot : Acyclic [[]] := by
  intro a n h
  have hstep : ∀ x : GStr, stepAlias [[]] x = none := fun x => rfl
  simp [iterAlias, hstep] at h

/-! ## The claims -/

/-- C3: for every environment (a local frame `s` with parent chain `rest`),
key and value: `get` and `has` search the local frame first and delegate to
the parent only if the key is absent locally; `set` stores locally exactly
when the key exists in the local frame or the scope has no parent, and
otherwise delegates the set to the parent scope. -/
theorem c3_env_contract (k : GStr) (v : Value) (s : Frame) (rest : Env) :
    envGet k (s :: rest) =
      (match flookup k s with
       | some w => some w
       | none => envGet k rest)
    ∧ envHas k (s :: rest) = ((flookup k s).isSome || envHas k rest)
    ∧ ((flookup k s).isSome = true ∨ rest = [] → envSet k v (s :: rest) = fset k v s :: rest)
    ∧ (flookup k s = none ∧ rest ≠ [] → envSet k v (s :: rest) = s :: envSet k v rest) := by
  refine ⟨rfl, rfl, ?_, ?_⟩
  · rintro (h | h)
    · cases rest with
      | nil => rfl
      | cons r rs => simp [envSet, h]
    · subst h; rfl
  · rintro ⟨h₁, h₂⟩
    exact envSet_cons_of_not_local k v s rest h₁ h₂

/-- Witness for C3: a concrete delegated `set` (key absent locally, parent
present) leaves the local frame untouched and mutates the parent chain. -/
theorem c3_witness :
    envSet [G.ch 'a'] (Value.text []) ([] :: [[]]) =
      [] :: envSet [G.ch 'a'] (Value.text []) [[]] :=
  (c3_env_contract [G.ch 'a'] (Value.text []) [] [[]]).2.2.2 ⟨rfl, by decide⟩

/-- C4, counterexample: with `a ↦ text "b"` and `b ↦` a function value, the
chain stops because the looked-up value is a function, and `resolveValue`
returns the original name `"a"` — not the last text value `"b"` — even
though a binding for `"a"` exists.  This refutes both the claimed
"returns the original name exactly when no binding existed" and the claimed
"result is the last text value when the chain stops at a function". -/
theorem c4_counterexample :
    resolveValue 3 [G.ch 'a']
        [[([G.ch 'a'], Value.text [G.ch 'b']), ([G.ch 'b'], Value.fn [] [])]] =
      some [G.ch 'a']
    ∧ (envGet [G.ch 'a']
        [[([G.ch 'a'], Value.text [G.ch 'b']), ([G.ch 'b'], Value.fn [] [])]]).isSome = true
    ∧ [G.ch 'a'] ≠ [G.ch 'b'] :=
  ⟨by decide, by decide, by decide⟩

/-- C4, amended: `resolveValue` follows the alias chain and returns the
last text value found when the chain stops because the looked-up text is
not itself a bound name; it returns the original name unchanged when no
binding existed at all for the original name AND ALSO when the chain stops
because the looked-up value is a function (not text) — in that case the
result is the original name, not the last text value encountered. -/
theorem c4_amended (env : Env) (name : GStr) :
    (envGet name env = none → ∀ fuel, resolveValue fuel name env = some name)
    ∧ (∀ p b, envGet name env = some (Value.fn p b) → ∀ fuel,
        resolveValue fuel name env = some name)
    ∧ (∀ v s fuel, envGet name env = some v → resolveLoop env fuel v = some (Value.text s) →
        resolveValue fuel name env = some s)
    ∧ (∀ v p b fuel, envGet name env = some v → resolveLoop env fuel v = some (Value.fn p b) →
        resolveValue fuel name env = some name) := by
  refine ⟨?_, ?_, ?_, ?_⟩
  · intro h fuel; simp [resolveValue, h]
  · intro p b h fuel; simp [resolveValue, h, resolveLoop]
  · intro v s fuel h hl; simp [resolveValue, h, hl]
  · intro v p b fuel h hl; simp [resolveValue, h, hl]

/-- Witness for C4's amended theorem: a name bound directly to a function
resolves to itself. -/
theorem c4_amended_witness :
    resolveValue 7 [G.ch 'q'] [[([G.ch 'q'], Value.fn [] [])]] = some [G.ch 'q'] :=
  (c4_amended [[([G.ch 'q'], Value.fn [] [])]] [G.ch 'q']).2.1 [] [] rfl 7

/-- C5, counterexample: the part `" ab"` (no ➕ in it) trims to the
two-cluster `"ab"`, so it is used as a literal — but verbatim in its
UNTRIMMED form `" ab"`, not the trimmed form the claim states. -/
theorem c5_counterexample :
    parseConcat 1 [G.ch ' ', G.ch 'a', G.ch 'b'] [[]] = some [G.ch ' ', G.ch 'a', G.ch 'b']
    ∧ trimG [G.ch ' ', G.ch 'a', G.ch 'b'] = [G.ch 'a', G.ch 'b']
    ∧ ([G.ch ' ', G.ch 'a', G.ch 'b'] : GStr) ≠ [G.ch 'a', G.ch 'b'] :=
  ⟨by decide, by decide, by decide⟩

/-- C5, amended: `parseConcat` splits the raw string on CONCAT; a part
whose trimmed form is exactly one grapheme cluster is resolved as a
variable name via the value resolver; any other part is used verbatim in
its ORIGINAL, UNTRIMMED form (no resolution); the results are joined with
no separator. -/
theorem c5_amended (fuel : Nat) (env : Env) :
    (∀ raw, G.concat ∉ raw → parseConcat fuel raw env = processPart fuel raw env)
    ∧ (∀ pre post, G.concat ∉ pre →
        parseConcat fuel (pre ++ G.concat :: post) env =
          (processPart fuel pre env).bind fun a =>
            (parseConcat fuel post env).map fun b => a ++ b)
    ∧ (∀ part g, trimG part = [g] → processPart fuel part env = resolveValue fuel [g] env)
    ∧ (∀ part, (∀ g, trimG part ≠ [g]) → processPart fuel part env = some part) := by
  refine ⟨fun raw h => parseConcat_single fuel env raw h,
    fun pre post h => parseConcat_split fuel env pre post h, ?_, ?_⟩
  · intro part g h; simp [processPart, h]
  · intro part h
    cases ht : trimG part with
    | nil => simp [processPart, ht]
    | cons g gs =>
      cases gs with
      | nil => exact absurd ht (h g)
      | cons g' gs' => simp [processPart, ht]

/-- Witness for C5's amended theorem: one concrete split around a ➕. -/
theorem c5_amended_witness :
    parseConcat 0 ([G.ch 'x', G.ch 'x'] ++ G.concat :: [G.ch 'y', G.ch 'y']) [[]] =
      (processPart 0 [G.ch 'x', G.ch 'x'] [[]]).bind fun a =>
        (parseConcat 0 [G.ch 'y', G.ch 'y'] [[]]).map fun b => a ++ b :=
  (c5_amended 0 [[]]).2.1 [G.ch 'x', G.ch 'x'] [G.ch 'y', G.ch 'y'] (by decide)

/-- C6, counterexample: ▶️ (ARROW) is one of the eight Symbols of the data
model, yet a line consisting of it alone makes the statement dispatcher
return absent — the dispatcher only ever matches the three tokens of the
`tokens` table (👉, 🗣️, ❓), not every known Symbol. -/
theorem c6_counterexample :
    parseLine [G.arrow] = none ∧ G.arrow ∈ specSymbols :=
  ⟨rfl, by decide⟩

/-- C6, amended: the statement dispatcher returns a node exactly when some
grapheme cluster of the line is one of the THREE statement tokens ASSIGN
(👉), PRINT (🗣️), COND (❓) — the remaining Symbols (ARROW, EQUALS,
CONCAT, FN_MARK, STMT_SEP) are not dispatch tokens — choosing the leftmost
match; for ASSIGN at position `i` the args are the trimmed text before and
after `i`, for PRINT and COND the args are the untrimmed clusters after
`i`. -/
theorem c6_amended (line : GStr) :
    (parseLine line = none ↔ ∀ g ∈ line, isTok g = false)
    ∧ (∀ pre t post, line = pre ++ t :: post → (∀ g ∈ pre, isTok g = false) → isTok t = true →
        parseLine line = some
          (if t = G.assign then Node.assign (trimG pre) (trimG post)
           else if t = G.speak then Node.print post
           else Node.cond post)) := by
  constructor
  · constructor
    · intro h g hg
      cases hf : findSplit isTok line with
      | none => exact (findSplit_eq_none_iff isTok line).mp hf g hg
      | some x =>
        obtain ⟨b, t, a⟩ := x
        obtain ⟨_, _, ht⟩ := findSplit_eq_some isTok line b t a hf
        have hne : parseLine line ≠ none := by
          unfold parseLine
          rw [hf]
          have h3 : t = G.assign ∨ t = G.speak ∨ t = G.quest := by
            cases t <;> simp_all [isTok]
          rcases h3 with h3 | h3 | h3 <;> subst h3 <;> simp
        exact absurd h hne
    · intro h
      unfold parseLine
      rw [(findSplit_eq_none_iff isTok line).mpr h]
  · intro pre t post hline hpre ht
    subst hline
    unfold parseLine
    rw [findSplit_append isTok t post ht pre hpre]
    have h3 : t = G.assign ∨ t = G.speak ∨ t = G.quest := by
      cases t <;> simp_all [isTok]
    rcases h3 with h3 | h3 | h3 <;> subst h3 <;> simp

/-- Witness for C6's amended theorem: a concrete ASSIGN line. -/
theorem c6_amended_witness :
    parseLine [G.ch 'a', G.assign, G.ch 'b'] = some (Node.assign [G.ch 'a'] [G.ch 'b']) := by
  have h := (c6_amended [G.ch 'a', G.assign, G.ch 'b']).2 [G.ch 'a'] G.assign [G.ch 'b'] rfl
    (by decide) (by decide)
  exact h.trans (by decide)

/-- C7: `createFn` returns absent exactly when the raw string does not
begin with FN_MARK or ARROW; it fails with the fatal
MalformedFunctionLiteral error exactly when the string begins with FN_MARK
or ARROW but contains no ARROW; otherwise the parameter names are the
clusters strictly between the leading marker and the first ARROW, and the
body is the text after that ARROW split on STMT_SEP. -/
theorem c7_createFn_contract (raw : GStr) :
    ((raw.head? ≠ some G.fnMark ∧ raw.head? ≠ some G.arrow) → createFn raw = Except.ok none)
    ∧ ((raw.head? = some G.fnMark ∨ raw.head? = some G.arrow) →
        (G.arrow ∉ raw → createFn raw = Except.error Err.missingArrowFn)
        ∧ (∀ pre post, raw = pre ++ G.arrow :: post → G.arrow ∉ pre →
            createFn raw = Except.ok (some (Value.fn ((pre.drop 1).map fun g => [g])
              (splitOnG G.sep post))))
        ∧ createFn raw ≠ Except.ok none)
    ∧ (∀ e, createFn raw = Except.error e →
        (raw.head? = some G.fnMark ∨ raw.head? = some G.arrow) ∧ G.arrow ∉ raw ∧
          e = Err.missingArrowFn) := by
  refine ⟨?_, ?_, ?_⟩
  · rintro ⟨h1, h2⟩
    unfold createFn
    have hno : ¬(raw.head? = some G.fnMark ∨ raw.head? = some G.arrow) := by
      rintro (h | h)
      exacts [h1 h, h2 h]
    rw [if_neg hno]
  · intro hh
    refine ⟨?_, ?_, ?_⟩
    · intro hmem
      unfold createFn
      rw [if_pos hh]
      have hf : findSplit (· = G.arrow) raw = none := by
        rw [findSplit_eq_none_iff]
        intro g hg
        have hga : ¬ g = G.arrow := fun hc => hmem (hc ▸ hg)
        simp [hga]
      rw [hf]
    · intro pre post hraw hpre
      unfold createFn
      rw [if_pos hh]
      have hp : ∀ g ∈ pre, (decide (g = G.arrow)) = false :=
        fun g hg => decide_eq_false fun hc => hpre (hc ▸ hg)
      rw [hraw, findSplit_append _ G.arrow post (by simp) pre hp]
    · unfold createFn
      rw [if_pos hh]
      cases hf : findSplit (· = G.arrow) raw with
      | none => simp
      | some x => obtain ⟨b, t, a⟩ := x; simp
  · intro e he
    unfold createFn at he
    by_cases hh : raw.head? = some G.fnMark ∨ raw.head? = some G.arrow
    · rw [if_pos hh] at he
      cases hf : findSplit (· = G.arrow) raw with
      | none =>
        refine ⟨hh, ?_, ?_⟩
        · intro hmem
          have := (findSplit_eq_none_iff _ raw).mp hf G.arrow hmem
          simp at this
        · rw [hf] at he
          injection he with h
          exact h.symm
      | some x =>
        rw [hf] at he
        obtain ⟨b, t, a⟩ := x
        exact absurd he (by simp)
    · rw [if_neg hh] at he
      exact absurd he (by simp)

/-- Witness for C7: a concrete function literal 🔧p▶️🗣️. -/
theorem c7_witness :
    createFn [G.fnMark, G.ch 'p', G.arrow, G.speak] =
      Except.ok (some (Value.fn [[G.ch 'p']] [[G.speak]])) := by
  have h := ((c7_createFn_contract [G.fnMark, G.ch 'p', G.arrow, G.speak]).2.1 (Or.inl rfl)).2.1
    [G.fnMark, G.ch 'p'] [G.speak] rfl (by decide)
  exact h.trans rfl

/-- C1, counterexample: in the program `❓a🟰a▶️x👉v` the name `x` is brand
new and is assigned only inside the conditional's child scope, yet after
the child scope is discarded the root (ancestor) scope DOES hold a binding
`x ↦ "v"` — because `ScopedMap.set` delegates an absent key to the parent,
all the way to the root. -/
theorem c1_counterexample :
    envGet [G.ch 'x'] [[]] = none
    ∧ interpret 9
        [[G.quest, G.ch 'a', G.equals, G.ch 'a', G.arrow, G.ch 'x', G.assign, G.ch 'v']] [[]] =
        Except.ok ([[([G.ch 'x'], Value.text [G.ch 'v'])]], [])
    ∧ envGet [G.ch 'x'] [[([G.ch 'x'], Value.text [G.ch 'v'])]] =
        some (Value.text [G.ch 'v']) :=
  ⟨rfl, rfl, rfl⟩

/-- C1, amended: inside a child scope, a `set` (the effect of ASSIGN) on a
name that is absent locally never creates a local binding: it is delegated
to the ancestor chain, where it mutates the first (nearest) ancestor frame
that already defines the name; if NO ancestor defines it, the binding is
created in the root (outermost) frame — so a brand-new name assigned in a
child scope DOES leak to the ancestors and persists after the child scope
is discarded; in either case the ancestor chain afterwards yields the new
value. -/
theorem c1_amended (k : GStr) (v : Value) (s : Frame) (rest : Env)
    (hrest : rest ≠ []) (hs : flookup k s = none) :
    envSet k v (s :: rest) = s :: envSet k v rest
    ∧ (∀ pre own post, rest = pre ++ own :: post → (∀ fr ∈ pre, flookup k fr = none) →
        (flookup k own).isSome = true → envSet k v rest = pre ++ fset k v own :: post)
    ∧ (envHas k rest = false →
        ∃ anc last, rest = anc ++ [last] ∧ envSet k v rest = anc ++ [fset k v last])
    ∧ envGet k (envSet k v rest) = some v := by
  refine ⟨envSet_cons_of_not_local k v s rest hs hrest, ?_, ?_,
    envGet_envSet_self k v rest hrest⟩
  · intro pre own post hr hpre hown
    rw [hr]
    exact envSet_owner k v pre own post hpre hown
  · intro hh
    exact envSet_root k v rest hrest hh

/-- Witness for C1's amended theorem: setting a brand-new name from a child
scope makes it retrievable in the ancestor chain. -/
theorem c1_amended_witness :
    envGet [G.ch 'n'] (envSet [G.ch 'n'] (Value.text []) [[]]) = some (Value.text []) :=
  (c1_amended [G.ch 'n'] (Value.text []) [] [[]] (by decide) rfl).2.2.2

/-- C2, counterexample: define `f👉🔧p▶️🗣️p` then call `fx`.  The parameter
`p` was unbound in the caller's chain before the call, yet after the call
returns the caller's (root) environment holds `p ↦ "x"` — the parameter
binding went through `ScopedMap.set`, which delegated it to the root, so it
was NOT discarded with the child scope. -/
theorem c2_counterexample :
    envGet [G.ch 'p'] [[([G.ch 'f'], Value.fn [[G.ch 'p']] [[G.speak, G.ch 'p']])]] = none
    ∧ interpret 9
        [[G.ch 'f', G.assign, G.fnMark, G.ch 'p', G.arrow, G.speak, G.ch 'p'],
         [G.ch 'f', G.ch 'x']] [[]] =
      Except.ok ([[([G.ch 'f'], Value.fn [[G.ch 'p']] [[G.speak, G.ch 'p']]),
        ([G.ch 'p'], Value.text [G.ch 'x'])]], [[G.ch 'x']])
    ∧ envGet [G.ch 'p'] [[([G.ch 'f'], Value.fn [[G.ch 'p']] [[G.speak, G.ch 'p']]),
        ([G.ch 'p'], Value.text [G.ch 'x'])]] = some (Value.text [G.ch 'x']) :=
  ⟨rfl, rfl, rfl⟩

/-- C2, amended: a call of a bound function runs the body in a child
environment of the caller's in which (for distinct parameter names) each
parameter resolves to the positional argument of the same index (missing
trailing arguments to the empty string) — but the parameter bindings are
installed through the scope chain's `set`, so none of them lands in the
child's local frame: they all go into the caller's chain (mutating the
owning ancestor or creating the name at the root), and they are NOT
discarded when the call returns — after a successful run the caller's
chain still has a binding for every parameter name. -/
theorem c2_amended (f : Nat) (line : GStr) (rest : List GStr) (env : Env)
    (g : G) (args : List G) (ns : List GStr) (body : List GStr)
    (henv : env ≠ [])
    (htrim : trimG line = g :: args)
    (hparse : parseLine (g :: args) = none)
    (hget : envGet [g] env = some (Value.fn ns body))
    (hns : ns ≠ []) :
    interpret (f + 1) (line :: rest) env =
      seqRun (interpret f body (bindArgs ns args ([] :: env))) (interpret f rest)
    ∧ bindArgs ns args ([] :: env) = [] :: bindArgs ns args env
    ∧ (ns.Nodup → ∀ (i : Nat) (h : i < ns.length),
        envGet (ns.get ⟨i, h⟩) (bindArgs ns args ([] :: env)) = some (valAt args i))
    ∧ (∀ e' out, interpret (f + 1) (line :: rest) env = Except.ok (e', out) →
        ∀ n ∈ ns, envHas n e' = true) := by
  have hok : (ns.isEmpty && !args.isEmpty) = false := by
    cases ns with
    | nil => exact absurd rfl hns
    | cons n ns' => rfl
  have hstep := interpret_call_eq f line rest env g args ns body htrim hparse hget hok
  refine ⟨hstep, bindArgs_child ns args env henv, ?_, ?_⟩
  · intro hnd i h
    exact bindArgs_get ns hnd i h args ([] :: env) (by simp)
  · intro e' out hrun n hn
    rw [hstep] at hrun
    obtain ⟨e₁, out₁, out₂, h₁, h₂, _⟩ := seqRun_eq_ok hrun
    have hbind : envHas n (bindArgs ns args ([] :: env)) = true :=
      envHas_bindArgs_of_mem hn args ([] :: env) (by simp)
    rw [bindArgs_child ns args env henv] at h₁ hbind
    have hsub₁ : envSub ([] :: bindArgs ns args env) e₁ := interpretMono f body _ _ h₁
    obtain ⟨b, u', _, hu, he₁⟩ := List.forall₂_cons_left_iff.mp hsub₁
    subst he₁
    have hcaller : envHas n (bindArgs ns args env) = true := by
      rw [envHas] at hbind
      simpa [flookup] using hbind
    have hsubu : envSub u' e' := interpretMono f rest u' (e', out₂) h₂
    exact envHas_of_envSub hsubu n (envHas_of_envSub hu n hcaller)

/-- Witness for C2's amended theorem: a concrete one-parameter call
unfolds to the body run in the argument-bound child chain. -/
theorem c2_amended_witness :
    interpret 3 [[G.ch 'f', G.ch 'x']] [[([G.ch 'f'], Value.fn [[G.ch 'p']] [])]] =
      seqRun (interpret 2 [] (bindArgs [[G.ch 'p']] [G.ch 'x']
          ([] :: [[([G.ch 'f'], Value.fn [[G.ch 'p']] [])]])))
        (interpret 2 []) :=
  (c2_amended 2 [G.ch 'f', G.ch 'x'] [] [[([G.ch 'f'], Value.fn [[G.ch 'p']] [])]]
    (G.ch 'f') [G.ch 'x'] [[G.ch 'p']] [] (by decide) (by decide) (by decide) (by decide)
    (by decide)).1

/-- C8: a call line whose leading cluster is bound to a zero-parameter
function fails fatally with the ArityMismatch error if and only if at
least one argument cluster follows the function name; with no arguments,
the function body is executed in a fresh child scope. -/
theorem c8_zero_param_call (f : Nat) (line : GStr) (rest : List GStr) (env : Env)
    (g : G) (args : List G) (body : List GStr)
    (htrim : trimG line = g :: args)
    (hparse : parseLine (g :: args) = none)
    (hget : envGet [g] env = some (Value.fn [] body)) :
    (args ≠ [] → interpret (f + 1) (line :: rest) env = Except.error Err.arityErr)
    ∧ (args = [] → interpret (f + 1) (line :: rest) env =
        seqRun (interpret f body ([] :: env)) (interpret f rest)) := by
  constructor
  · intro h
    exact interpret_call_arity f line rest env g args body htrim hparse hget h
  · intro h
    subst h
    exact interpret_call_eq f line rest env g [] [] body htrim hparse hget rfl

/-- Witness for C8: calling a concrete zero-parameter function with one
argument cluster is a fatal arity error. -/
theorem c8_witness :
    interpret 2 [[G.ch 'f', G.ch 'x']] [[([G.ch 'f'], Value.fn [] [])]] =
      Except.error Err.arityErr :=
  (c8_zero_param_call 1 [G.ch 'f', G.ch 'x'] [] [[([G.ch 'f'], Value.fn [] [])]]
    (G.ch 'f') [G.ch 'x'] [] (by decide) (by decide) rfl).1 (by decide)

/-- C9: on every environment whose text-alias chains are acyclic, the
value resolver terminates — some finite fuel suffices for `resolveValue`
to return a result for any name. -/
theorem c9_resolve_terminates (env : Env) (hac : Acyclic env) (name : GStr) :
    ∃ fuel, (resolveValue fuel name env).isSome = true := by
  cases hg : envGet name env with
  | none => exact ⟨0, by simp [resolveValue, hg]⟩
  | some v =>
    cases v with
    | fn p b => exact ⟨0, by simp [resolveValue, hg, resolveLoop]⟩
    | text b =>
      cases hb : envHas b env with
      | false => exact ⟨0, by simp [resolveValue, hg, resolveLoop, hb]⟩
      | true =>
        obtain ⟨f, hdies⟩ := existsDies env hac b hb
        refine ⟨f + 1, ?_⟩
        have hgb : (envGet b env).isSome = true := by
          rw [← envHas_eq_isSome]; exact hb
        obtain ⟨v', hv'⟩ := Option.isSome_iff_exists.mp hgb
        have hne := resolveLoop_ne_none env f b v' hv' hdies
        have hloop : resolveLoop env (f + 1) (Value.text b) = resolveLoop env f v' := by
          simp [resolveLoop, hb, hv']
        simp only [resolveValue, hg]
        rw [hloop]
        cases hl : resolveLoop env f v' with
        | none => exact absurd hl hne
        | some w => cases w <;> simp

/-- Witness for C9: the empty root environment is acyclic and resolution
terminates on it. -/
theorem c9_witness :
    Acyclic [[]] ∧ ∃ fuel, (resolveValue fuel [G.ch 'z'] [[]]).isSome = true :=
  ⟨acyclicNilRoot, c9_resolve_terminates [[]] acyclicNilRoot [G.ch 'z']⟩

/-- C10: calling a function that has at least one parameter with more
argument clusters than parameters raises no arity error: the run is the
body run with only the first (parameter-count) arguments bound — the
surplus trailing arguments are silently discarded
(`bindArgs ns args = bindArgs ns (args.take ns.length)`). -/
theorem c10_surplus_args (f : Nat) (line : GStr) (rest : List GStr) (env : Env)
    (g : G) (args : List G) (ns : List GStr) (body : List GStr)
    (htrim : trimG line = g :: args)
    (hparse : parseLine (g :: args) = none)
    (hget : envGet [g] env = some (Value.fn ns body))
    (hns : ns ≠ [])
    (hlen : ns.length < args.length) :
    interpret (f + 1) (line :: rest) env =
      seqRun (interpret f body (bindArgs ns (args.take ns.length) ([] :: env)))
        (interpret f rest) := by
  have hok : (ns.isEmpty && !args.isEmpty) = false := by
    cases ns with
    | nil => exact absurd rfl hns
    | cons n ns' => rfl
  rw [interpret_call_eq f line rest env g args ns body htrim hparse hget hok,
    bindArgs_take ns args ([] :: env)]

/-- Witness for C10: two arguments to a one-parameter function; only the
first is bound. -/
theorem c10_witness :
    interpret 4 [[G.ch 'f', G.ch 'x', G.ch 'y']] [[([G.ch 'f'], Value.fn [[G.ch 'p']] [])]] =
      seqRun (interpret 3 [] (bindArgs [[G.ch 'p']] [G.ch 'x']
          ([] :: [[([G.ch 'f'], Value.fn [[G.ch 'p']] [])]])))
        (interpret 3 []) :=
  c10_surplus_args 3 [G.ch 'f', G.ch 'x', G.ch 'y'] [] [[([G.ch 'f'], Value.fn [[G.ch 'p']] [])]]
    (G.ch 'f') [G.ch 'x', G.ch 'y'] [[G.ch 'p']] [] (by decide) (by decide) rfl
    (by decide) (by decide)
